import Mathlib

/-!
Verification of the inference dispatch core of go-network-proxy:
the priority queue (inference/queue/queue.go), the worker client
(inference/worker), the router (inference/router/router.go) and the
inference HTTP endpoint (proxy/handlers/inference.go).

Go machine integers are modelled as `Int`/`Nat` (no arithmetic overflows
occur in the modelled paths), `time.Time` monotonic timestamps as `Nat`
(with `Before` as `<`), `float32` temperatures as `ℚ` (only compared,
never computed with), and Go channels by their capacities and by explicit
lists of the values sent on them.
-/

set_option maxHeartbeats 1000000
set_option linter.unusedSectionVars false

/-- Request, from inference/queue/queue.go. The two channels are
represented by their capacities (`responseChCap`, `errorChCap`); the
values flowing through them are modelled in the worker/handler sections.
The internal heap bookkeeping field `index` is written by `Swap`,
`Push` and `Pop` but never read by any ordering decision, so it is
omitted from the model. -/
structure Request where
  id : String
  model : String
  prompt : String
  maxTokens : Int
  temperature : ℚ
  priority : Int
  submitTime : Nat
  startTime : Nat
  responseChCap : Nat
  errorChCap : Nat
deriving DecidableEq, Repr, Inhabited

/-- RequestHeap.Less from inference/queue/queue.go:
priority check first (higher is better), then FIFO fallback on
SubmitTime (older is better, `time.Time.Before` is strict `<`). -/
def requestLess (a b : Request) : Bool :=
  if a.priority ≠ b.priority then decide (a.priority > b.priority)
  else decide (a.submitTime < b.submitTime)

section HeapGeneric

variable {α : Type} [Inhabited α]

/-- Element read `h[i]` on a Go slice, with the `Inhabited` default for
out-of-range indices (the algorithms below never read out of range). -/
def nth (l : List α) (i : Nat) : α := l.getD i default

/-- Swap from heap.Interface: `h[i], h[j] = h[j], h[i]`. -/
def lswap (l : List α) (i j : Nat) : List α :=
  (l.set i (nth l j)).set j (nth l i)

theorem length_lswap (l : List α) (i j : Nat) :
    (lswap l i j).length = l.length := by
  simp [lswap]

theorem nth_eq_getElem (l : List α) (i : Nat) (h : i < l.length) :
    nth l i = l[i] := by
  simp [nth, List.getD_eq_getElem?_getD, List.getElem?_eq_getElem h]

theorem nth_set_self (l : List α) (i : Nat) (x : α) (h : i < l.length) :
    nth (l.set i x) i = x := by
  rw [nth_eq_getElem _ _ (by simpa using h)]
  simp

theorem nth_set_ne (l : List α) (i j : Nat) (x : α) (h : i ≠ j) :
    nth (l.set i x) j = nth l j := by
  simp [nth, List.getD_eq_getElem?_getD, List.getElem?_set_ne h]

theorem nth_lswap_left (l : List α) (i j : Nat) (hi : i < l.length) :
    nth (lswap l i j) i = nth l j := by
  unfold lswap
  rcases eq_or_ne i j with rfl | hij
  · rw [nth_set_self _ _ _ (by simpa using hi)]
  · rw [nth_set_ne _ _ _ _ (Ne.symm hij), nth_set_self _ _ _ hi]

theorem nth_lswap_right (l : List α) (i j : Nat) (hj : j < l.length) :
    nth (lswap l i j) j = nth l i := by
  unfold lswap
  rw [nth_set_self _ _ _ (by simpa using hj)]

theorem nth_lswap_other (l : List α) (i j k : Nat) (hki : k ≠ i) (hkj : k ≠ j) :
    nth (lswap l i j) k = nth l k := by
  unfold lswap
  rw [nth_set_ne _ _ _ _ (Ne.symm hkj), nth_set_ne _ _ _ _ (Ne.symm hki)]

theorem cons_nth_set_perm (x : α) :
    ∀ (l : List α) (k : Nat), k < l.length → (nth l k :: l.set k x).Perm (x :: l)
  | [], k, h => by simp at h
  | y :: t, 0, _ => by
    simpa [nth] using List.Perm.swap x y t
  | y :: t, k + 1, h => by
    have ih := cons_nth_set_perm x t k (by simpa using h)
    have h1 : (nth (y :: t) (k + 1) :: (y :: t).set (k + 1) x).Perm
        (y :: nth t k :: t.set k x) := by
      simpa [nth] using List.Perm.swap y (nth t k) (t.set k x)
    exact h1.trans ((ih.cons y).trans (List.Perm.swap x y t))

theorem lswap_perm (l : List α) (i j : Nat) (hi : i < l.length) (hj : j < l.length) :
    (lswap l i j).Perm l := by
  have h1 : (nth (l.set i (nth l j)) j :: lswap l i j).Perm
      (nth l i :: l.set i (nth l j)) := by
    simpa [lswap] using
      cons_nth_set_perm (nth l i) (l.set i (nth l j)) j (by simpa using hj)
  have h2 : (nth l i :: l.set i (nth l j)).Perm (nth l j :: l) :=
    cons_nth_set_perm (nth l j) l i hi
  rcases eq_or_ne i j with rfl | hij
  · rw [nth_set_self _ _ _ hi] at h1
    exact (h1.trans h2).cons_inv
  · rw [nth_set_ne _ _ _ _ hij] at h1
    exact (h1.trans h2).cons_inv

end HeapGeneric

namespace GoHeap

variable {α : Type} [Inhabited α] (lt : α → α → Bool)

/-- Sift-up from Go container/heap:
`for { i := (j-1)/2; if i == j || !h.Less(j, i) { break }; h.Swap(i, j); j = i }`.
With Go ints, `(0-1)/2` truncates to `0`, so `i == j` stops at the root;
Nat subtraction gives the same value. -/
def up (l : List α) (j : Nat) : List α :=
  if _h : (j - 1) / 2 = j then l
  else if lt (nth l j) (nth l ((j - 1) / 2)) then up (lswap l ((j - 1) / 2) j) ((j - 1) / 2)
  else l
termination_by j
decreasing_by simp_wf; omega

/-- Child selection inside Go's sift-down: the local
`j := j1; if j2 := j1 + 1; j2 < n && h.Less(j2, j1) { j = j2 }`. -/
def childSel (l : List α) (i n : Nat) : Nat :=
  if 2 * i + 2 < n ∧ lt (nth l (2 * i + 2)) (nth l (2 * i + 1)) then 2 * i + 2
  else 2 * i + 1

/-- Sift-down from Go container/heap. The `j1 < 0` test in the source
guards machine-int overflow only, which cannot occur on Nat. The boolean
result `i > i0` of the Go function is not consumed by `Init`, `Push` or
`Pop`, so it is dropped. -/
def down (l : List α) (i n : Nat) : List α :=
  if _h1 : 2 * i + 1 ≥ n then l
  else if lt (nth l (childSel lt l i n)) (nth l i) then
    down (lswap l i (childSel lt l i n)) (childSel lt l i n) n
  else l
termination_by n - i
decreasing_by simp_wf; unfold childSel; split <;> omega

/-- heap.Push: `h.Push(x); up(h, h.Len()-1)` where `RequestHeap.Push`
appends to the slice. -/
def push (l : List α) (x : α) : List α :=
  up lt (l ++ [x]) ((l ++ [x]).length - 1)

/-- heap.Pop: `n := h.Len()-1; h.Swap(0, n); down(h, 0, n); return h.Pop()`
where `RequestHeap.Pop` removes and returns the last slice element. -/
def pop (l : List α) : α × List α :=
  let n := l.length - 1
  let l2 := down lt (lswap l 0 n) 0 n
  (nth l2 n, l2.dropLast)

/-- Loop body of heap.Init: `for i := n/2 - 1; i >= 0; i-- { down(h, i, n) }`. -/
def initAux (n : Nat) (l : List α) : Nat → List α
  | 0 => l
  | k + 1 => initAux n (down lt l k n) k

/-- heap.Init (a no-op on the empty heap the queue constructor passes it). -/
def init (l : List α) : List α := initAux lt l.length l (l.length / 2)

/-- The non-strict order induced by a strict `Less`: `a` may legally sit
above `b` in the heap. -/
def nodeLE (a b : α) : Prop := lt b a = false

/-- Heap invariant on the first `n` positions: no child is `Less` than
its parent. -/
def IsHeapN (l : List α) (n : Nat) : Prop :=
  ∀ j, j < n → 0 < j → nodeLE lt (nth l ((j - 1) / 2)) (nth l j)

/-- Heap invariant for the whole slice. -/
def IsHeap (l : List α) : Prop := IsHeapN lt l l.length

/-- Properties of a strict weak order, satisfied by `RequestHeap.Less`:
asymmetry, transitivity, and negative transitivity. -/
structure LawfulLt (lt' : α → α → Bool) : Prop where
  asymm : ∀ a b, lt' a b = true → lt' b a = false
  lt_trans : ∀ a b c, lt' a b = true → lt' b c = true → lt' a c = true
  neg_trans : ∀ a b c, lt' a c = true → lt' a b = true ∨ lt' b c = true

theorem LawfulLt.le_refl (hl : LawfulLt lt) (a : α) : nodeLE lt a a := by
  unfold nodeLE
  cases h : lt a a with
  | false => rfl
  | true => exact h.symm.trans (hl.asymm a a h)

theorem LawfulLt.le_trans (hl : LawfulLt lt) {a b c : α}
    (h1 : nodeLE lt a b) (h2 : nodeLE lt b c) : nodeLE lt a c := by
  unfold nodeLE at *
  cases h : lt c a with
  | false => rfl
  | true =>
    rcases hl.neg_trans c b a h with h' | h'
    · rw [h'] at h2; exact h2
    · rw [h'] at h1; exact h1

theorem LawfulLt.le_of_lt (hl : LawfulLt lt) {a b : α}
    (h : lt a b = true) : nodeLE lt a b := hl.asymm a b h

theorem LawfulLt.le_of_not_lt {a b : α}
    (h : lt a b = false) : nodeLE lt b a := h

theorem childSel_gt (l : List α) (i n : Nat) : i < childSel lt l i n := by
  unfold childSel; split <;> omega

theorem childSel_lt_n (l : List α) (i n : Nat) (h : 2 * i + 1 < n) :
    childSel lt l i n < n := by
  unfold childSel; split <;> omega

theorem childSel_parent (l : List α) (i n : Nat) :
    (childSel lt l i n - 1) / 2 = i := by
  unfold childSel; split <;> omega

theorem childSel_min (hl : LawfulLt lt) (l : List α) (i n c : Nat)
    (hc0 : 0 < c) (hc : c < n) (hp : (c - 1) / 2 = i) (hne : c ≠ childSel lt l i n) :
    nodeLE lt (nth l (childSel lt l i n)) (nth l c) := by
  have hcases : c = 2 * i + 1 ∨ c = 2 * i + 2 := by omega
  by_cases hcond : 2 * i + 2 < n ∧ lt (nth l (2 * i + 2)) (nth l (2 * i + 1)) = true
  · unfold childSel at hne ⊢
    rw [if_pos hcond] at hne ⊢
    rcases hcases with rfl | rfl
    · exact hl.le_of_lt lt hcond.2
    · omega
  · unfold childSel at hne ⊢
    rw [if_neg hcond] at hne ⊢
    rcases hcases with rfl | rfl
    · omega
    · cases hx : lt (nth l (2 * i + 2)) (nth l (2 * i + 1)) with
      | false => exact hx
      | true => exact absurd ⟨by omega, hx⟩ hcond

theorem up_length (l : List α) (j : Nat) : (up lt l j).length = l.length := by
  induction l, j using up.induct lt with
  | case1 l j h => rw [up.eq_def, dif_pos h]
  | case2 l j h hlt ih =>
    rw [up.eq_def, dif_neg h, if_pos hlt, ih, length_lswap]
  | case3 l j h hlt => rw [up.eq_def, dif_neg h, if_neg hlt]

theorem up_perm (l : List α) (j : Nat) (hj : j < l.length) :
    (up lt l j).Perm l := by
  induction l, j using up.induct lt with
  | case1 l j h => rw [up.eq_def, dif_pos h]
  | case2 l j h hlt ih =>
    rw [up.eq_def, dif_neg h, if_pos hlt]
    have hij : (j - 1) / 2 < j := by omega
    have := ih (by rw [length_lswap]; omega)
    exact this.trans (lswap_perm l _ j (by omega) hj)
  | case3 l j h hlt => rw [up.eq_def, dif_neg h, if_neg hlt]

theorem down_length (l : List α) (i n : Nat) :
    (down lt l i n).length = l.length := by
  induction l, i, n using down.induct lt with
  | case1 l i n h => rw [down.eq_def, dif_pos h]
  | case2 l i n h hlt ih =>
    rw [down.eq_def, dif_neg h, if_pos hlt, ih, length_lswap]
  | case3 l i n h hlt => rw [down.eq_def, dif_neg h, if_neg hlt]

theorem down_perm (l : List α) (i n : Nat) (hn : n ≤ l.length) (hi : i < n) :
    (down lt l i n).Perm l := by
  induction l, i, n using down.induct lt with
  | case1 l i n h => rw [down.eq_def, dif_pos h]
  | case2 l i n h hlt ih =>
    rw [down.eq_def, dif_neg h, if_pos hlt]
    have h1 : childSel lt l i n < n := childSel_lt_n lt l i n (by omega)
    have := ih (by rw [length_lswap]; omega) h1
    exact this.trans (lswap_perm l i _ (by omega) (by omega))
  | case3 l i n h hlt => rw [down.eq_def, dif_neg h, if_neg hlt]

/-- Invariant driving sift-up at position `j`: every parent/child pair
other than the one above `j` is ordered, and the children of `j` already
dominate the grandparent above `j`. -/
def UpInv (l : List α) (j : Nat) : Prop :=
  (∀ k, k < l.length → 0 < k → k ≠ j →
    nodeLE lt (nth l ((k - 1) / 2)) (nth l k)) ∧
  (∀ c, c < l.length → (c - 1) / 2 = j → 0 < j →
    nodeLE lt (nth l ((j - 1) / 2)) (nth l c))

theorem upInv_step (hl : LawfulLt lt) (l : List α) (j : Nat) (hj : j < l.length)
    (hj0 : 0 < j)
    (hlt : lt (nth l j) (nth l ((j - 1) / 2)) = true)
    (hinv : UpInv lt l j) :
    UpInv lt (lswap l ((j - 1) / 2) j) ((j - 1) / 2) := by
  have hij : (j - 1) / 2 < j := by omega
  have hi : (j - 1) / 2 < l.length := by omega
  constructor
  · intro k hk hk0 hki
    rw [length_lswap] at hk
    rcases eq_or_ne k j with rfl | hkj
    · rw [nth_lswap_left l _ _ hi, nth_lswap_right l _ _ hj]
      exact hl.le_of_lt lt hlt
    · rw [nth_lswap_other l _ j k hki hkj]
      by_cases hpkj : (k - 1) / 2 = j
      · rw [hpkj, nth_lswap_right l _ j hj]
        exact hinv.2 k hk hpkj hj0
      · by_cases hpki : (k - 1) / 2 = (j - 1) / 2
        · rw [hpki, nth_lswap_left l _ j hi]
          have h1 := hinv.1 k hk hk0 hkj
          rw [hpki] at h1
          unfold nodeLE at h1 ⊢
          cases hx : lt (nth l k) (nth l j) with
          | false => rfl
          | true =>
            have h2 := hl.lt_trans _ _ _ hx hlt
            rw [h2] at h1
            exact h1
        · rw [nth_lswap_other l _ j _ hpki hpkj]
          exact hinv.1 k hk hk0 hkj
  · intro c hc hpc hi0
    rw [length_lswap] at hc
    have hpi_lt : ((j - 1) / 2 - 1) / 2 < (j - 1) / 2 := by omega
    have hpne1 : ((j - 1) / 2 - 1) / 2 ≠ (j - 1) / 2 := by omega
    have hpne2 : ((j - 1) / 2 - 1) / 2 ≠ j := by omega
    rw [nth_lswap_other l _ j _ hpne1 hpne2]
    rcases eq_or_ne c j with hcj | hcj
    · rw [hcj, nth_lswap_right l _ _ hj]
      exact hinv.1 ((j - 1) / 2) hi hi0 (by omega)
    · have hci : c ≠ (j - 1) / 2 := by omega
      rw [nth_lswap_other l _ j c hci hcj]
      have hc0 : 0 < c := by omega
      exact hl.le_trans lt (hinv.1 ((j - 1) / 2) hi hi0 (by omega))
        (by
          have := hinv.1 c hc hc0 hcj
          rw [hpc] at this
          exact this)

theorem up_heap (hl : LawfulLt lt) :
    ∀ (l : List α) (j : Nat), j < l.length → UpInv lt l j →
      IsHeap lt (up lt l j) := by
  intro l j
  induction l, j using up.induct lt with
  | case1 l j h =>
    intro hj hinv
    rw [up.eq_def, dif_pos h]
    intro k hk hk0
    exact hinv.1 k hk hk0 (by omega)
  | case2 l j h hlt ih =>
    intro hj hinv
    rw [up.eq_def, dif_neg h, if_pos hlt]
    exact ih (by rw [length_lswap]; omega)
      (upInv_step lt hl l j hj (by omega) hlt hinv)
  | case3 l j h hlt =>
    intro hj hinv
    rw [up.eq_def, dif_neg h, if_neg hlt]
    intro k hk hk0
    rcases eq_or_ne k j with rfl | hkj
    · simpa [nodeLE] using hlt
    · exact hinv.1 k hk hk0 hkj

/-- Invariant driving sift-down at position `i` within the first `n`
entries: every parent/child pair except those under `i` is ordered, and
the children of `i` already dominate the parent of `i`. -/
def DownInv (l : List α) (i n : Nat) : Prop :=
  (∀ k, k < n → 0 < k → (k - 1) / 2 ≠ i →
    nodeLE lt (nth l ((k - 1) / 2)) (nth l k)) ∧
  (∀ c, c < n → (c - 1) / 2 = i → 0 < i →
    nodeLE lt (nth l ((i - 1) / 2)) (nth l c))

theorem downInv_step (hl : LawfulLt lt) (l : List α) (i n : Nat)
    (hn : n ≤ l.length) (h1 : 2 * i + 1 < n)
    (hlt : lt (nth l (childSel lt l i n)) (nth l i) = true)
    (hinv : DownInv lt l i n) :
    DownInv lt (lswap l i (childSel lt l i n)) (childSel lt l i n) n := by
  have hij : i < childSel lt l i n := childSel_gt lt l i n
  have hjn : childSel lt l i n < n := childSel_lt_n lt l i n h1
  have hpj : (childSel lt l i n - 1) / 2 = i := childSel_parent lt l i n
  have hjl : childSel lt l i n < l.length := by omega
  have hil : i < l.length := by omega
  constructor
  · intro k hk hk0 hpk
    rcases eq_or_ne k (childSel lt l i n) with rfl | hkj
    · rw [hpj, nth_lswap_left l i _ hil, nth_lswap_right l i _ hjl]
      exact hl.le_of_lt lt hlt
    · rcases eq_or_ne k i with rfl | hki
      · have hpi_ne_i : (k - 1) / 2 ≠ k := by omega
        have hpi_ne_j : (k - 1) / 2 ≠ childSel lt l k n := by omega
        rw [nth_lswap_other l k _ _ hpi_ne_i hpi_ne_j,
          nth_lswap_left l k _ hil]
        exact hinv.2 (childSel lt l k n) hjn hpj hk0
      · rw [nth_lswap_other l i _ k hki hkj]
        by_cases hpki : (k - 1) / 2 = i
        · rw [hpki, nth_lswap_left l i _ hil]
          exact childSel_min lt hl l i n k hk0 hk hpki hkj
        · have hpkj : (k - 1) / 2 ≠ childSel lt l i n := hpk
          rw [nth_lswap_other l i _ _ hpki hpkj]
          exact hinv.1 k hk hk0 hpki
  · intro c hc hpc _
    have hcj : c ≠ childSel lt l i n := by omega
    have hci : c ≠ i := by omega
    rw [hpj, nth_lswap_left l i _ hil, nth_lswap_other l i _ c hci hcj]
    have hc0 : 0 < c := by omega
    have := hinv.1 c hc hc0 (by omega)
    rw [hpc] at this
    exact this

theorem down_heap (hl : LawfulLt lt) :
    ∀ (l : List α) (i n : Nat), n ≤ l.length → DownInv lt l i n →
      IsHeapN lt (down lt l i n) n := by
  intro l i n
  induction l, i, n using down.induct lt with
  | case1 l i n h =>
    intro hn hinv
    rw [down.eq_def, dif_pos h]
    intro k hk hk0
    exact hinv.1 k hk hk0 (by omega)
  | case2 l i n h hlt ih =>
    intro hn hinv
    rw [down.eq_def, dif_neg h, if_pos hlt]
    exact ih (by rw [length_lswap]; exact hn)
      (downInv_step lt hl l i n hn (by omega) hlt hinv)
  | case3 l i n h hlt =>
    intro hn hinv
    rw [down.eq_def, dif_neg h, if_neg hlt]
    intro k hk hk0
    by_cases hpk : (k - 1) / 2 = i
    · rcases eq_or_ne k (childSel lt l i n) with rfl | hkc
      · rw [hpk]
        simpa [nodeLE] using hlt
      · have hsel : nodeLE lt (nth l i) (nth l (childSel lt l i n)) := by
          simpa [nodeLE] using hlt
        rw [hpk]
        exact hl.le_trans lt hsel (childSel_min lt hl l i n k hk0 hk hpk hkc)
    · exact hinv.1 k hk hk0 hpk

/-- Sift-down never touches positions at or beyond `n`. -/
theorem down_nth_ge (l : List α) (i n k : Nat) (hi : i < n) (hk : n ≤ k) :
    nth (down lt l i n) k = nth l k := by
  induction l, i, n using down.induct lt with
  | case1 l i n h => rw [down.eq_def, dif_pos h]
  | case2 l i n h hlt ih =>
    rw [down.eq_def, dif_neg h, if_pos hlt]
    have h1 : childSel lt l i n < n := childSel_lt_n lt l i n (by omega)
    rw [ih h1 hk, nth_lswap_other l i _ k (by omega) (by omega)]
  | case3 l i n h hlt => rw [down.eq_def, dif_neg h, if_neg hlt]

/-- In a heap, the root is below every entry in the heap order. -/
theorem root_min (hl : LawfulLt lt) (l : List α) (n : Nat) (hh : IsHeapN lt l n) :
    ∀ k, k < n → nodeLE lt (nth l 0) (nth l k) := by
  intro k
  induction k using Nat.strong_induction_on with
  | _ k ih =>
    intro hk
    rcases Nat.eq_zero_or_pos k with rfl | hk0
    · exact hl.le_refl lt _
    · exact hl.le_trans lt (ih ((k - 1) / 2) (by omega) (by omega)) (hh k hk hk0)

theorem push_length (l : List α) (x : α) :
    (push lt l x).length = l.length + 1 := by
  unfold push
  rw [up_length]
  simp

theorem push_perm (l : List α) (x : α) : (push lt l x).Perm (x :: l) := by
  unfold push
  exact (up_perm lt (l ++ [x]) _ (by simp)).trans (List.perm_append_singleton x l)

theorem nth_append_left (l l' : List α) (i : Nat) (h : i < l.length) :
    nth (l ++ l') i = nth l i := by
  simp [nth, List.getD_eq_getElem?_getD, List.getElem?_append_left h]

theorem push_isHeap (hl : LawfulLt lt) (l : List α) (x : α) (hh : IsHeap lt l) :
    IsHeap lt (push lt l x) := by
  unfold push
  apply up_heap lt hl _ _ (by simp)
  constructor
  · intro k hk hk0 hkj
    simp only [List.length_append, List.length_cons, List.length_nil] at hk hkj
    have hklen : k < l.length := by omega
    rw [nth_append_left l [x] k hklen, nth_append_left l [x] _ (by omega)]
    exact hh k hklen hk0
  · intro c hc hpc hj0
    simp only [List.length_append, List.length_cons, List.length_nil] at hc hpc hj0
    omega

theorem nth_dropLast (l : List α) (k : Nat) (hk : k < l.length - 1) :
    nth (l.dropLast) k = nth l k := by
  rw [nth_eq_getElem _ _ (by simp; omega), nth_eq_getElem _ _ (by omega)]
  simp [List.getElem_dropLast]

/-- Specification of heap.Pop on a nonempty heap: it returns the root,
which is minimal; the remainder is a heap; and nothing is lost. -/
theorem pop_spec (hl : LawfulLt lt) (l : List α) (hne : l ≠ []) (hh : IsHeap lt l) :
    (pop lt l).1 = nth l 0 ∧
    ((pop lt l).1 :: (pop lt l).2).Perm l ∧
    IsHeap lt (pop lt l).2 ∧
    (pop lt l).2.length = l.length - 1 := by
  have hlen : 0 < l.length := List.length_pos.mpr hne
  have hnlt : l.length - 1 < l.length := by omega
  have hswaplen : (lswap l 0 (l.length - 1)).length = l.length := length_lswap ..
  have hdownlen :
      (down lt (lswap l 0 (l.length - 1)) 0 (l.length - 1)).length = l.length := by
    rw [down_length, hswaplen]
  have hfst : (pop lt l).1 = nth l 0 := by
    unfold pop
    simp only
    rcases Nat.eq_zero_or_pos (l.length - 1) with h0 | h0
    · rw [h0, down.eq_def, dif_pos (by omega)]
      exact nth_lswap_left l 0 0 hlen
    · rw [down_nth_ge lt _ 0 _ _ h0 (le_refl _),
        nth_lswap_right l 0 _ hnlt]
  have hperm0 : (down lt (lswap l 0 (l.length - 1)) 0 (l.length - 1)).Perm l := by
    rcases Nat.eq_zero_or_pos (l.length - 1) with h0 | h0
    · rw [h0, down.eq_def, dif_pos (by omega)]
      exact lswap_perm l 0 0 hlen hlen
    · exact (down_perm lt _ 0 _ (by omega) h0).trans (lswap_perm l 0 _ hlen hnlt)
  have hne2 : down lt (lswap l 0 (l.length - 1)) 0 (l.length - 1) ≠ [] := by
    intro hcon
    rw [hcon] at hdownlen
    simp at hdownlen
    omega
  have hlast : nth (down lt (lswap l 0 (l.length - 1)) 0 (l.length - 1))
      (l.length - 1) =
      (down lt (lswap l 0 (l.length - 1)) 0 (l.length - 1)).getLast hne2 := by
    rw [List.getLast_eq_getElem, nth_eq_getElem _ _ (by omega)]
    simp [hdownlen]
  have hsplit : (pop lt l).2 ++ [(pop lt l).1] =
      down lt (lswap l 0 (l.length - 1)) 0 (l.length - 1) := by
    unfold pop
    simp only
    rw [hlast]
    exact List.dropLast_concat_getLast hne2
  refine ⟨hfst, ?_, ?_, ?_⟩
  · have : ((pop lt l).2 ++ [(pop lt l).1]).Perm l := by
      rw [hsplit]; exact hperm0
    exact (List.perm_append_singleton _ _).symm.trans this
  · have hdheap : IsHeapN lt (down lt (lswap l 0 (l.length - 1)) 0 (l.length - 1))
        (l.length - 1) := by
      apply down_heap lt hl _ 0 _ (by omega)
      constructor
      · intro k hk hk0 hpk
        rw [nth_lswap_other l 0 _ k (by omega) (by omega),
          nth_lswap_other l 0 _ _ (by omega) (by omega)]
        exact hh k (by omega) hk0
      · intro c hc hpc hc0
        omega
    unfold IsHeap
    intro k hk hk0
    unfold pop at hk ⊢
    simp only at hk ⊢
    rw [List.length_dropLast, hdownlen] at hk
    rw [nth_dropLast _ _ (by rw [hdownlen]; omega),
      nth_dropLast _ _ (by rw [hdownlen]; omega)]
    exact hdheap k hk hk0
  · unfold pop
    simp only
    rw [List.length_dropLast, hdownlen]

/-- A heap root is below every member of the heap. -/
theorem root_min_mem (hl : LawfulLt lt) (l : List α) (hh : IsHeap lt l)
    (y : α) (hy : y ∈ l) : nodeLE lt (nth l 0) y := by
  rcases List.mem_iff_getElem.mp hy with ⟨i, hi, rfl⟩
  rw [← nth_eq_getElem l i hi]
  exact root_min lt hl l l.length hh i hi

end GoHeap

/-- RequestHeap.Less as a propositional ordering: true exactly when the
first record has strictly higher priority, or equal priority and a
strictly earlier submit time. -/
theorem requestLess_iff (a b : Request) :
    requestLess a b = true ↔
      b.priority < a.priority ∨
        (a.priority = b.priority ∧ a.submitTime < b.submitTime) := by
  unfold requestLess
  split
  case isTrue h => simp only [decide_eq_true_eq]; omega
  case isFalse h => simp only [decide_eq_true_eq]; omega

/-- RequestHeap.Less is a strict weak order. -/
theorem requestLess_lawful : GoHeap.LawfulLt (α := Request) requestLess := by
  refine ⟨?_, ?_, ?_⟩
  · intro a b h
    rw [requestLess_iff] at h
    simp only [Bool.eq_false_iff, Ne, requestLess_iff]
    omega
  · intro a b c h1 h2
    rw [requestLess_iff] at h1 h2 ⊢
    omega
  · intro a b c h
    rw [requestLess_iff] at h
    simp only [requestLess_iff]
    omega

/-- PriorityQueue from inference/queue/queue.go. The mutex and condition
variable serialize the operations; the model is the state they protect,
one operation at a time. `inflight` is the `sync.WaitGroup` counter
(added on Push, decremented on Done); `queueDepthGauge` mirrors the
`metrics.InferenceQueueDepth` gauge and `inFlightGauge` the
`metrics.InferenceInFlight` gauge (incremented on Pop, decremented on
Done). -/
structure PriorityQueue where
  items : List Request
  closed : Bool
  inflight : Nat
  queueDepthGauge : Nat
  inFlightGauge : Int
deriving DecidableEq, Repr

namespace PriorityQueue

/-- NewPriorityQueue: an empty slice handed to heap.Init, open queue. -/
def new : PriorityQueue :=
  { items := GoHeap.init requestLess []
    closed := false
    inflight := 0
    queueDepthGauge := 0
    inFlightGauge := 0 }

/-- Push from queue.go: returns false at once on a closed queue with no
state change; otherwise bumps the WaitGroup, heap-pushes, updates the
depth gauge, signals one waiter, and returns true. -/
def Push (pq : PriorityQueue) (req : Request) : Bool × PriorityQueue :=
  if pq.closed then (false, pq)
  else
    (true, { pq with
      inflight := pq.inflight + 1
      items := GoHeap.push requestLess pq.items req
      queueDepthGauge := (GoHeap.push requestLess pq.items req).length })

/-- Pop from queue.go, as the observable outcome of one call in a
sequential execution: `none` when the call blocks in `cond.Wait` (empty
and not closed), `some (none, pq)` when it returns nil (empty and
closed), otherwise the heap-pop, with the depth and in-flight gauges
updated. -/
def Pop (pq : PriorityQueue) : Option (Option Request × PriorityQueue) :=
  if pq.items.length = 0 then
    if pq.closed then some (none, pq) else none
  else
    some (some (GoHeap.pop requestLess pq.items).1,
      { pq with
        items := (GoHeap.pop requestLess pq.items).2
        queueDepthGauge := (GoHeap.pop requestLess pq.items).2.length
        inFlightGauge := pq.inFlightGauge + 1 })

/-- Done from queue.go: decrement the in-flight gauge and the WaitGroup
(whose Go counter must stay non-negative on pain of a runtime panic;
well-formed traces below only invoke Done after an unmatched Pop, as the
router does). -/
def Done (pq : PriorityQueue) : PriorityQueue :=
  { pq with
    inFlightGauge := pq.inFlightGauge - 1
    inflight := pq.inflight - 1 }

/-- Close from queue.go: flip the closed flag and broadcast. Queued items
are untouched. -/
def Close (pq : PriorityQueue) : PriorityQueue := { pq with closed := true }

/-- Wait from queue.go (`inflight.Wait()`): returns exactly when the
WaitGroup counter is zero. -/
def WaitReturns (pq : PriorityQueue) : Prop := pq.inflight = 0

/-- A sequence of Push calls, keeping the second components. -/
def pushList (pq : PriorityQueue) : List Request → PriorityQueue
  | [] => pq
  | r :: rs => ((pq.Push r).2).pushList rs

/-- A sequence of Pop calls, collecting the returned records. The
sequence stops early if a call blocks or returns nil. -/
def popList (pq : PriorityQueue) : Nat → List Request × PriorityQueue
  | 0 => ([], pq)
  | k + 1 =>
    match pq.Pop with
    | some (some r, pq') =>
      let t := pq'.popList k
      (r :: t.1, t.2)
    | _ => ([], pq)

theorem new_items : new.items = [] := rfl

theorem push_open_spec (pq : PriorityQueue) (req : Request)
    (hcl : pq.closed = false) :
    (pq.Push req).1 = true ∧
    (pq.Push req).2.items = GoHeap.push requestLess pq.items req ∧
    (pq.Push req).2.closed = pq.closed ∧
    (pq.Push req).2.inflight = pq.inflight + 1 := by
  unfold Push
  rw [hcl]
  simp [hcl]

theorem pushList_spec (reqs : List Request) :
    ∀ (pq : PriorityQueue),
      GoHeap.IsHeap requestLess pq.items → pq.closed = false →
      GoHeap.IsHeap requestLess (pq.pushList reqs).items ∧
      (pq.pushList reqs).items.Perm (reqs ++ pq.items) ∧
      (pq.pushList reqs).closed = false := by
  induction reqs with
  | nil => intro pq hh hcl; exact ⟨hh, by simp [pushList], hcl⟩
  | cons r rs ih =>
    intro pq hh hcl
    unfold pushList
    have hp := push_open_spec pq r hcl
    have hheap' : GoHeap.IsHeap requestLess (pq.Push r).2.items := by
      rw [hp.2.1]
      exact GoHeap.push_isHeap requestLess requestLess_lawful pq.items r hh
    have hcl' : (pq.Push r).2.closed = false := hp.2.2.1.trans hcl
    obtain ⟨ih1, ih2, ih3⟩ := ih (pq.Push r).2 hheap' hcl'
    refine ⟨ih1, ?_, ih3⟩
    have hperm1 : (pq.Push r).2.items.Perm (r :: pq.items) := by
      rw [hp.2.1]
      exact GoHeap.push_perm requestLess pq.items r
    have h2 : (rs ++ (pq.Push r).2.items).Perm (rs ++ (r :: pq.items)) :=
      hperm1.append_left rs
    have h3 : (rs ++ (r :: pq.items)).Perm (r :: (rs ++ pq.items)) :=
      List.perm_middle
    exact ih2.trans (h2.trans h3)

/-- Draining a heap-invariant queue with as many Pops as queued records
returns them all, in the heap order, leaving the queue empty. -/
theorem popList_drain (k : Nat) :
    ∀ (pq : PriorityQueue), GoHeap.IsHeap requestLess pq.items →
      pq.items.length = k →
      (pq.popList k).1.Perm pq.items ∧
      (pq.popList k).1.Pairwise (GoHeap.nodeLE requestLess) ∧
      (pq.popList k).2.items = [] ∧
      (pq.popList k).2.closed = pq.closed := by
  induction k with
  | zero =>
    intro pq hh hlen
    refine ⟨?_, ?_, ?_, ?_⟩ <;>
      simp [popList, List.length_eq_zero.mp hlen]
  | succ k ih =>
    intro pq hh hlen
    have hne : pq.items ≠ [] := by
      intro hcon; rw [hcon] at hlen; simp at hlen
    obtain ⟨hfst, hperm, hheap', hlen'⟩ :=
      GoHeap.pop_spec requestLess requestLess_lawful pq.items hne hh
    have hpop : pq.Pop = some (some (GoHeap.pop requestLess pq.items).1,
        { pq with
          items := (GoHeap.pop requestLess pq.items).2
          queueDepthGauge := (GoHeap.pop requestLess pq.items).2.length
          inFlightGauge := pq.inFlightGauge + 1 }) := by
      unfold Pop
      rw [if_neg (by omega)]
    unfold popList
    rw [hpop]
    simp only
    set pq' : PriorityQueue :=
      { pq with
        items := (GoHeap.pop requestLess pq.items).2
        queueDepthGauge := (GoHeap.pop requestLess pq.items).2.length
        inFlightGauge := pq.inFlightGauge + 1 } with hpq'
    obtain ⟨ih1, ih2, ih3, ih4⟩ := ih pq' hheap' (by rw [hpq']; simp only; omega)
    refine ⟨?_, ?_, ih3, ih4⟩
    · exact ((ih1.cons (GoHeap.pop requestLess pq.items).1).trans hperm)
    · refine List.Pairwise.cons ?_ ih2
      intro y hy
      have hy2 : y ∈ (GoHeap.pop requestLess pq.items).2 := ih1.mem_iff.mp hy
      have hy3 : y ∈ pq.items := hperm.mem_iff.mp (by simp [hy2])
      rw [hfst]
      exact GoHeap.root_min_mem requestLess requestLess_lawful pq.items hh y hy3

end PriorityQueue

/-- One queue operation in a sequential execution trace. -/
inductive QueueOp where
  | push (r : Request)
  | pop
  | done
  | close
deriving DecidableEq, Repr

/-- Trace statistics: how many Push calls returned true, how many Pop
calls returned a record, how many Done calls were made. -/
structure OpStats where
  pushedOK : Nat
  popped : Nat
  dones : Nat
deriving DecidableEq, Repr

def OpStats.zero : OpStats := ⟨0, 0, 0⟩

/-- One step of a sequential execution. `none` marks an operation that
cannot complete: a Pop that blocks, or a Done with no matching popped
record (the router, the only caller, invokes Done exactly once after
each successful Pop; an unmatched Done would panic the WaitGroup). -/
def stepOp : PriorityQueue × OpStats → QueueOp → Option (PriorityQueue × OpStats)
  | (pq, st), .push r =>
    some ((pq.Push r).2,
      if (pq.Push r).1 then { st with pushedOK := st.pushedOK + 1 } else st)
  | (pq, st), .pop =>
    match pq.Pop with
    | none => none
    | some (none, pq') => some (pq', st)
    | some (some _, pq') => some (pq', { st with popped := st.popped + 1 })
  | (pq, st), .done =>
    if st.dones < st.popped then some (pq.Done, { st with dones := st.dones + 1 })
    else none
  | (pq, st), .close => some (pq.Close, st)

/-- Run a list of queue operations from a given state. -/
def runOps (s : PriorityQueue × OpStats) :
    List QueueOp → Option (PriorityQueue × OpStats)
  | [] => some s
  | op :: ops =>
    match stepOp s op with
    | none => none
    | some s' => runOps s' ops

/-- The conservation invariant tying a queue state to its trace
statistics. -/
def Conserved (pq : PriorityQueue) (st : OpStats) : Prop :=
  st.dones ≤ st.popped ∧ st.popped ≤ st.pushedOK ∧
  pq.items.length = st.pushedOK - st.popped ∧
  pq.inFlightGauge = (st.popped : Int) - (st.dones : Int) ∧
  pq.inflight = st.pushedOK - st.dones ∧
  pq.queueDepthGauge = pq.items.length ∧
  GoHeap.IsHeap requestLess pq.items

theorem stepOp_conserved (pq : PriorityQueue) (st : OpStats) (op : QueueOp)
    (pq' : PriorityQueue) (st' : OpStats)
    (hc : Conserved pq st) (h : stepOp (pq, st) op = some (pq', st')) :
    Conserved pq' st' := by
  obtain ⟨h1, h2, h3, h4, h5, h6, h7⟩ := hc
  cases op with
  | push r =>
    by_cases hcl : pq.closed = true
    · have hps : pq.Push r = (false, pq) := by
        unfold PriorityQueue.Push; rw [if_pos hcl]
      simp only [stepOp, hps] at h
      simp at h
      obtain ⟨hpq, hst⟩ := h
      subst hpq; subst hst
      exact ⟨h1, h2, h3, h4, h5, h6, h7⟩
    · have hcl' : pq.closed = false := by simpa using hcl
      have hps : pq.Push r = (true,
          { pq with
            inflight := pq.inflight + 1
            items := GoHeap.push requestLess pq.items r
            queueDepthGauge := (GoHeap.push requestLess pq.items r).length }) := by
        unfold PriorityQueue.Push
        rw [hcl']
        simp
      simp only [stepOp, hps] at h
      simp at h
      obtain ⟨hpq, hst⟩ := h
      subst hpq; subst hst
      unfold Conserved
      dsimp only
      refine ⟨h1, by omega, ?_, h4, by omega, rfl, ?_⟩
      · rw [GoHeap.push_length]; omega
      · exact GoHeap.push_isHeap requestLess requestLess_lawful pq.items r h7
  | pop =>
    by_cases hemp : pq.items.length = 0
    · by_cases hcl : pq.closed = true
      · have hpp : pq.Pop = some (none, pq) := by
          unfold PriorityQueue.Pop; rw [if_pos hemp, if_pos hcl]
        simp only [stepOp, hpp] at h
        simp at h
        obtain ⟨hpq, hst⟩ := h
        subst hpq; subst hst
        exact ⟨h1, h2, h3, h4, h5, h6, h7⟩
      · have hpp : pq.Pop = none := by
          unfold PriorityQueue.Pop; rw [if_pos hemp, if_neg hcl]
        simp only [stepOp, hpp] at h
        simp at h
    · have hpp : pq.Pop = some (some (GoHeap.pop requestLess pq.items).1,
          { pq with
            items := (GoHeap.pop requestLess pq.items).2
            queueDepthGauge := (GoHeap.pop requestLess pq.items).2.length
            inFlightGauge := pq.inFlightGauge + 1 }) := by
        unfold PriorityQueue.Pop; rw [if_neg hemp]
      simp only [stepOp, hpp] at h
      simp at h
      obtain ⟨hpq, hst⟩ := h
      subst hpq; subst hst
      have hne : pq.items ≠ [] := by
        intro hcon; rw [hcon] at hemp; simp at hemp
      obtain ⟨_, hperm, hheap', hlen'⟩ :=
        GoHeap.pop_spec requestLess requestLess_lawful pq.items hne h7
      unfold Conserved
      dsimp only
      refine ⟨by omega, by omega, ?_, by rw [h4]; push_cast; ring, by omega, rfl, hheap'⟩
      rw [hlen']
      omega
  | done =>
    by_cases hlt : st.dones < st.popped
    · simp only [stepOp, if_pos hlt] at h
      simp at h
      obtain ⟨hpq, hst⟩ := h
      subst hpq; subst hst
      unfold Conserved PriorityQueue.Done
      dsimp only
      refine ⟨by omega, h2, h3, by rw [h4]; push_cast; omega, by omega, h6, h7⟩
    · simp only [stepOp, if_neg hlt] at h
      simp at h
  | close =>
    simp only [stepOp] at h
    simp at h
    obtain ⟨hpq, hst⟩ := h
    subst hpq; subst hst
    exact ⟨h1, h2, h3, h4, h5, h6, h7⟩

theorem runOps_conserved (ops : List QueueOp) :
    ∀ (s s' : PriorityQueue × OpStats), Conserved s.1 s.2 →
      runOps s ops = some s' → Conserved s'.1 s'.2 := by
  induction ops with
  | nil =>
    intro s s' hc h
    simp only [runOps] at h
    cases h
    exact hc
  | cons op ops ih =>
    intro s s' hc h
    simp only [runOps] at h
    cases hstep : stepOp s op with
    | none => rw [hstep] at h; simp at h
    | some s1 =>
      rw [hstep] at h
      exact ih s1 s' (stepOp_conserved s.1 s.2 op s1.1 s1.2 hc
        (by rw [← hstep])) h

theorem conserved_new : Conserved PriorityQueue.new OpStats.zero := by
  refine ⟨le_refl _, le_refl _, rfl, rfl, rfl, rfl, ?_⟩
  intro j hj hj0
  simp [PriorityQueue.new, GoHeap.init, GoHeap.initAux] at hj

/-- Once closed, a queue stays closed under any sequence of operations. -/
theorem stepOp_closed (pq : PriorityQueue) (st : OpStats) (op : QueueOp)
    (pq' : PriorityQueue) (st' : OpStats)
    (hcl : pq.closed = true) (h : stepOp (pq, st) op = some (pq', st')) :
    pq'.closed = true := by
  cases op with
  | push r =>
    have hps : pq.Push r = (false, pq) := by
      unfold PriorityQueue.Push; rw [if_pos hcl]
    simp only [stepOp, hps] at h
    simp at h
    obtain ⟨hpq, _⟩ := h
    subst hpq
    exact hcl
  | pop =>
    by_cases hemp : pq.items.length = 0
    · have hpp : pq.Pop = some (none, pq) := by
        unfold PriorityQueue.Pop; rw [if_pos hemp, if_pos hcl]
      simp only [stepOp, hpp] at h
      simp at h
      obtain ⟨hpq, _⟩ := h
      subst hpq
      exact hcl
    · have hpp : pq.Pop = some (some (GoHeap.pop requestLess pq.items).1,
          { pq with
            items := (GoHeap.pop requestLess pq.items).2
            queueDepthGauge := (GoHeap.pop requestLess pq.items).2.length
            inFlightGauge := pq.inFlightGauge + 1 }) := by
        unfold PriorityQueue.Pop; rw [if_neg hemp]
      simp only [stepOp, hpp] at h
      simp at h
      obtain ⟨hpq, _⟩ := h
      subst hpq
      exact hcl
  | done =>
    by_cases hlt : st.dones < st.popped
    · simp only [stepOp, if_pos hlt] at h
      simp at h
      obtain ⟨hpq, _⟩ := h
      subst hpq
      exact hcl
    · simp only [stepOp, if_neg hlt] at h
      simp at h
  | close =>
    simp only [stepOp] at h
    simp at h
    obtain ⟨hpq, _⟩ := h
    subst hpq
    rfl

theorem runOps_closed (ops : List QueueOp) :
    ∀ (s s' : PriorityQueue × OpStats), s.1.closed = true →
      runOps s ops = some s' → s'.1.closed = true := by
  induction ops with
  | nil =>
    intro s s' hcl h
    simp only [runOps] at h
    cases h
    exact hcl
  | cons op ops ih =>
    intro s s' hcl h
    simp only [runOps] at h
    cases hstep : stepOp s op with
    | none => rw [hstep] at h; simp at h
    | some s1 =>
      rw [hstep] at h
      exact ih s1 s' (stepOp_closed s.1 s.2 op s1.1 s1.2 hcl (by rw [← hstep])) h

/-- TokenResponse from the worker streaming protocol: token text,
cumulative token count, finished flag, model echo. -/
structure TokenResponse where
  token : String
  tokenCount : Int
  finished : Bool
  model : String
deriving DecidableEq, Repr, Inhabited

/-- How the worker's inbound frame stream ends: a clean `io.EOF`, or a
transport/deadline error carrying a message. -/
inductive StreamEnd where
  | eof
  | recvErr (msg : String)
deriving DecidableEq, Repr

/-- Observable effects of one ProcessRequest call on the record's two
egress channels, together with the status label reported to the
per-worker metrics counter. -/
structure ProcessEffects where
  tokensForwarded : List TokenResponse
  errorsSent : List String
  responseClosed : Bool
  status : String
deriving DecidableEq, Repr

namespace WorkerClient

/-- The `stream.Recv` loop of Client.ProcessRequest
(inference/worker/client.go): forward each frame into the token channel;
on `io.EOF` close the token channel and return; on any other receive
error deliver it into the error channel and return without closing. -/
def recvLoop : List TokenResponse → StreamEnd → ProcessEffects
  | [], .eof => ⟨[], [], true, "success"⟩
  | [], .recvErr e => ⟨[], [e], false, "error"⟩
  | t :: ts, ending =>
    { recvLoop ts ending with
      tokensForwarded := t :: (recvLoop ts ending).tokensForwarded }

/-- Client.ProcessRequest: record the start time on the request, issue
the streaming Generate call (`genErr` is its immediate error result, as
from a broken connection or an expired deadline), then run the receive
loop over the stream's frames (`frames`) and its ending (`ending`). -/
def ProcessRequest (req : Request) (now : Nat) (genErr : Option String)
    (frames : List TokenResponse) (ending : StreamEnd) :
    Request × ProcessEffects :=
  let req' := { req with startTime := now }
  match genErr with
  | some e => (req', ⟨[], [e], false, "error"⟩)
  | none => (req', recvLoop frames ending)

end WorkerClient

/-- The decoded JSON submission body of the inference endpoint. Fields
absent from the JSON decode to their Go zero values (empty string, 0),
exactly as `json.Decoder.Decode` leaves them. -/
structure ReqBody where
  prompt : String
  maxTokens : Int
  temperature : ℚ
  model : String
  priority : Int
deriving DecidableEq, Repr

/-- Outcome of one InferenceHandler.ServeHTTP call, up to (but not
including) the streaming select loop: the HTTP status committed (200 for
a streaming response), whether the three SSE headers were set, whether
the streaming loop was entered, the record constructed (if any), the
record actually pushed onto the queue (if any), and the queue state the
handler leaves behind. -/
structure HandlerResult where
  status : Nat
  sseHeadersSet : Bool
  enteredStreamLoop : Bool
  recordBuilt : Option Request
  recordPushed : Option Request
  finalQueue : PriorityQueue
deriving Repr

namespace InferenceHandler

/-- The Apply-Defaults block of ServeHTTP (proxy/handlers/inference.go):
temperature 0.7 if non-positive, max tokens 100 if non-positive, model
"default-model" if empty, priority 1 if non-positive, in source order. -/
def applyDefaults (b : ReqBody) : ReqBody :=
  let b1 := if b.temperature ≤ 0 then { b with temperature := 7 / 10 } else b
  let b2 := if b1.maxTokens ≤ 0 then { b1 with maxTokens := 100 } else b1
  let b3 := if b2.model = "" then { b2 with model := "default-model" } else b2
  if b3.priority ≤ 0 then { b3 with priority := 1 } else b3

/-- Request-id selection and record construction of ServeHTTP: use the
middleware-provided context id if present, else mint one from the
current time; allocate the token channel with capacity 100 and the
error channel with capacity 1; SubmitTime is the current time. -/
def buildRecord (b : ReqBody) (ctxRequestID : Option String) (now : Nat) :
    Request :=
  { id := match ctxRequestID with
      | some s => s
      | none => "req-" ++ toString now
    model := b.model, prompt := b.prompt
    maxTokens := b.maxTokens, temperature := b.temperature
    priority := b.priority, submitTime := now, startTime := 0
    responseChCap := 100, errorChCap := 1 }

/-- The enqueue-and-stream tail of ServeHTTP: Push (503 and return on
false, before any header is written), then the three SSE headers, then
the flusher check (500 and return on failure), then the streaming loop. -/
def serveWithRecord (q : PriorityQueue) (req : Request) (flusherOK : Bool) :
    HandlerResult :=
  if (q.Push req).1 = false then
    { status := 503, sseHeadersSet := false, enteredStreamLoop := false
      recordBuilt := some req, recordPushed := none
      finalQueue := (q.Push req).2 }
  else if flusherOK = false then
    { status := 500, sseHeadersSet := true, enteredStreamLoop := false
      recordBuilt := some req, recordPushed := some req
      finalQueue := (q.Push req).2 }
  else
    { status := 200, sseHeadersSet := true, enteredStreamLoop := true
      recordBuilt := some req, recordPushed := some req
      finalQueue := (q.Push req).2 }

/-- InferenceHandler.ServeHTTP up to the streaming loop. `body` is the
JSON decode result (`none` for invalid JSON), `ctxRequestID` the
request id found in the request context by the request-id middleware,
`now` the current time (used for the fallback id and SubmitTime),
`flusherOK` whether the ResponseWriter supports http.Flusher. In source
order: decode (400), defaults, empty-prompt check (400), record
construction, Push (503 on false), SSE headers, flusher check (500),
streaming loop. -/
def ServeHTTP (q : PriorityQueue) (body : Option ReqBody)
    (ctxRequestID : Option String) (now : Nat) (flusherOK : Bool) :
    HandlerResult :=
  match body with
  | none =>
    { status := 400, sseHeadersSet := false, enteredStreamLoop := false
      recordBuilt := none, recordPushed := none, finalQueue := q }
  | some b0 =>
    let b := applyDefaults b0
    if b.prompt = "" then
      { status := 400, sseHeadersSet := false, enteredStreamLoop := false
        recordBuilt := none, recordPushed := none, finalQueue := q }
    else
      serveWithRecord q (buildRecord b ctxRequestID now) flusherOK

end InferenceHandler

/-- One externally visible effect of Router.Close
(inference/router/router.go). -/
inductive RouterEvent where
  | queueClose
  | queueWait
  | workerClose (i : Nat)
deriving DecidableEq, Repr

namespace Router

/-- The order of effects in Router.Close: `r.queue.Close()`, then
`r.queue.Wait()`, then `w.Close()` for each worker in pool order. -/
def CloseTrace (numWorkers : Nat) : List RouterEvent :=
  RouterEvent.queueClose :: RouterEvent.queueWait ::
    (List.range numWorkers).map RouterEvent.workerClose

/-- Router.Close in a sequential execution: the queue is closed first;
the per-worker consumer loops may then run any interleaving `drainOps`
of queue operations; Wait returns only once the WaitGroup counter is
zero; only after that are the worker connections closed. `none` marks
an execution in which Close has not yet returned. -/
def CloseRun (pq : PriorityQueue) (st : OpStats) (drainOps : List QueueOp)
    (numWorkers : Nat) : Option (PriorityQueue × OpStats × List RouterEvent) :=
  match runOps (pq.Close, st) drainOps with
  | none => none
  | some (pq2, st2) =>
    if pq2.inflight = 0 then some (pq2, st2, CloseTrace numWorkers) else none

end Router

theorem applyDefaults_spec (b : ReqBody) :
    InferenceHandler.applyDefaults b =
      { prompt := b.prompt
        maxTokens := if b.maxTokens ≤ 0 then 100 else b.maxTokens
        temperature := if b.temperature ≤ 0 then 7 / 10 else b.temperature
        model := if b.model = "" then "default-model" else b.model
        priority := if b.priority ≤ 0 then 1 else b.priority } := by
  unfold InferenceHandler.applyDefaults
  by_cases h1 : b.temperature ≤ 0 <;> by_cases h2 : b.maxTokens ≤ 0 <;>
    by_cases h3 : b.model = "" <;> by_cases h4 : b.priority ≤ 0 <;>
    simp [h1, h2, h3, h4]

theorem new_isHeap : GoHeap.IsHeap requestLess PriorityQueue.new.items := by
  intro j hj hj0
  simp [PriorityQueue.new, GoHeap.init, GoHeap.initAux] at hj

theorem recvLoop_eof (frames : List TokenResponse) :
    WorkerClient.recvLoop frames StreamEnd.eof =
      ⟨frames, [], true, "success"⟩ := by
  induction frames with
  | nil => rfl
  | cons t ts ih => simp [WorkerClient.recvLoop, ih]

theorem recvLoop_err (frames : List TokenResponse) (e : String) :
    WorkerClient.recvLoop frames (StreamEnd.recvErr e) =
      ⟨frames, [e], false, "error"⟩ := by
  induction frames with
  | nil => rfl
  | cons t ts ih => simp [WorkerClient.recvLoop, ih]

/-- C1: for every finite sequence of Push calls followed by as many Pop
calls with no intervening concurrency, the queue returns the pushed
records in an order sort-stable on the key (-priority, submit_time): a
record with strictly higher priority is popped before any record of
lower priority, and among equal priorities the earlier SubmitTime is
popped first. -/
theorem C1_pop_order_sort_stable (reqs : List Request) :
    ((PriorityQueue.new.pushList reqs).popList reqs.length).1.Perm reqs ∧
    List.Pairwise
      (fun a b => b.priority < a.priority ∨
        (a.priority = b.priority ∧ a.submitTime ≤ b.submitTime))
      ((PriorityQueue.new.pushList reqs).popList reqs.length).1 := by
  obtain ⟨hh, hperm, hcl⟩ :=
    PriorityQueue.pushList_spec reqs PriorityQueue.new new_isHeap rfl
  have hperm' : (PriorityQueue.new.pushList reqs).items.Perm reqs := by
    simpa [PriorityQueue.new_items] using hperm
  have hlen : (PriorityQueue.new.pushList reqs).items.length = reqs.length :=
    hperm'.length_eq
  obtain ⟨hp1, hp2, hp3, hp4⟩ :=
    PriorityQueue.popList_drain reqs.length (PriorityQueue.new.pushList reqs)
      hh hlen
  refine ⟨hp1.trans hperm', ?_⟩
  refine hp2.imp ?_
  intro a b hab
  unfold GoHeap.nodeLE at hab
  rw [Bool.eq_false_iff, Ne] at hab
  rw [requestLess_iff] at hab
  omega

/-- C2: at every reachable state (sequentially valid operation trace
from a fresh queue), queue depth plus the in-flight gauge equals the
number of successfully pushed records not yet marked Done; and when
Wait (the drain) can return, every successful Push has been matched by
exactly one Pop and one Done. -/
theorem C2_conservation (ops : List QueueOp) (pq : PriorityQueue) (st : OpStats)
    (h : runOps (PriorityQueue.new, OpStats.zero) ops = some (pq, st)) :
    ((pq.items.length : Int) + pq.inFlightGauge
        = (st.pushedOK : Int) - (st.dones : Int)) ∧
    (pq.WaitReturns → st.dones = st.pushedOK ∧ st.popped = st.pushedOK) := by
  have hc : Conserved pq st :=
    runOps_conserved ops (PriorityQueue.new, OpStats.zero) (pq, st)
      conserved_new h
  obtain ⟨h1, h2, h3, h4, h5, _, _⟩ := hc
  constructor
  · rw [h3, h4]
    omega
  · intro hw
    unfold PriorityQueue.WaitReturns at hw
    rw [hw] at h5
    exact ⟨by omega, by omega⟩

def reqA : Request :=
  { id := "r1", model := "m", prompt := "hello", maxTokens := 10
    temperature := 1 / 2, priority := 5, submitTime := 3, startTime := 0
    responseChCap := 100, errorChCap := 1 }

theorem C2_conservation_witness :
    (((PriorityQueue.mk [] true 0 0 0).items.length : Int)
        + (PriorityQueue.mk [] true 0 0 0).inFlightGauge
        = ((OpStats.mk 1 1 1).pushedOK : Int) - ((OpStats.mk 1 1 1).dones : Int)) ∧
    ((PriorityQueue.mk [] true 0 0 0).WaitReturns →
      (OpStats.mk 1 1 1).dones = (OpStats.mk 1 1 1).pushedOK ∧
      (OpStats.mk 1 1 1).popped = (OpStats.mk 1 1 1).pushedOK) :=
  C2_conservation [QueueOp.push reqA, QueueOp.pop, QueueOp.done, QueueOp.close]
    (PriorityQueue.mk [] true 0 0 0) (OpStats.mk 1 1 1) (by
    simp [runOps, stepOp, PriorityQueue.new, PriorityQueue.Push,
      PriorityQueue.Pop, PriorityQueue.Done, PriorityQueue.Close,
      GoHeap.init, GoHeap.initAux, GoHeap.push, GoHeap.pop, GoHeap.up,
      GoHeap.down, lswap, nth, reqA, OpStats.zero])

/-- C3: Pop returns nil exactly when the queue is closed and empty;
otherwise it returns the ordered head (a queued record below every
queued record in the heap order); Close keeps the queued items, so after
Close the queued records are all returned by subsequent Pops (here: as
many Pops as records) before any Pop returns nil. -/
theorem C3_pop_close_semantics (pq : PriorityQueue)
    (hh : GoHeap.IsHeap requestLess pq.items) :
    (pq.Pop = some (none, pq) ↔ pq.closed = true ∧ pq.items = []) ∧
    (∀ r pq', pq.Pop = some (some r, pq') →
      r ∈ pq.items ∧ ∀ y ∈ pq.items, GoHeap.nodeLE requestLess r y) ∧
    (pq.items ≠ [] → ∃ r pq', pq.Pop = some (some r, pq')) ∧
    pq.Close.items = pq.items ∧
    (pq.Close.popList pq.items.length).1.Perm pq.items ∧
    (pq.Close.popList pq.items.length).2.Pop
      = some (none, (pq.Close.popList pq.items.length).2) := by
  obtain ⟨hd1, hd2, hd3, hd4⟩ :=
    PriorityQueue.popList_drain pq.items.length pq.Close hh rfl
  refine ⟨?_, ?_, ?_, rfl, hd1, ?_⟩
  · by_cases hemp : pq.items.length = 0
    · have hitems := List.length_eq_zero.mp hemp
      by_cases hcl : pq.closed = true
      · have hpp : pq.Pop = some (none, pq) := by
          unfold PriorityQueue.Pop; rw [if_pos hemp, if_pos hcl]
        simp [hpp, hcl, hitems]
      · have hpp : pq.Pop = none := by
          unfold PriorityQueue.Pop; rw [if_pos hemp, if_neg hcl]
        simp [hpp, hcl]
    · have hne : pq.items ≠ [] := by
        intro hc; rw [hc] at hemp; simp at hemp
      have hpp : pq.Pop = some (some (GoHeap.pop requestLess pq.items).1,
          { pq with
            items := (GoHeap.pop requestLess pq.items).2
            queueDepthGauge := (GoHeap.pop requestLess pq.items).2.length
            inFlightGauge := pq.inFlightGauge + 1 }) := by
        unfold PriorityQueue.Pop; rw [if_neg hemp]
      rw [hpp]
      simp [hne]
  · intro r pq' hr
    by_cases hemp : pq.items.length = 0
    · by_cases hcl : pq.closed = true
      · have hpp : pq.Pop = some (none, pq) := by
          unfold PriorityQueue.Pop; rw [if_pos hemp, if_pos hcl]
        rw [hpp] at hr; simp at hr
      · have hpp : pq.Pop = none := by
          unfold PriorityQueue.Pop; rw [if_pos hemp, if_neg hcl]
        rw [hpp] at hr; simp at hr
    · have hne : pq.items ≠ [] := by
        intro hc; rw [hc] at hemp; simp at hemp
      have hpp : pq.Pop = some (some (GoHeap.pop requestLess pq.items).1,
          { pq with
            items := (GoHeap.pop requestLess pq.items).2
            queueDepthGauge := (GoHeap.pop requestLess pq.items).2.length
            inFlightGauge := pq.inFlightGauge + 1 }) := by
        unfold PriorityQueue.Pop; rw [if_neg hemp]
      rw [hpp] at hr
      simp at hr
      obtain ⟨hr1, _⟩ := hr
      obtain ⟨hfst, hperm, _, _⟩ :=
        GoHeap.pop_spec requestLess requestLess_lawful pq.items hne hh
      subst hr1
      constructor
      · exact hperm.mem_iff.mp (List.mem_cons_self _ _)
      · intro y hy
        rw [hfst]
        exact GoHeap.root_min_mem requestLess requestLess_lawful pq.items hh y hy
  · intro hne
    have hemp : ¬ pq.items.length = 0 := by
      intro hc; exact hne (List.length_eq_zero.mp hc)
    exact ⟨(GoHeap.pop requestLess pq.items).1, _,
      by unfold PriorityQueue.Pop; rw [if_neg hemp]⟩
  · have hA : (pq.Close.popList pq.items.length).2.items.length = 0 := by
      rw [hd3]; rfl
    have hB : (pq.Close.popList pq.items.length).2.closed = true := by
      rw [hd4]; rfl
    unfold PriorityQueue.Pop
    rw [if_pos hA, if_pos hB]

theorem C3_pop_close_semantics_witness :
    (PriorityQueue.mk [reqA] false 1 1 0).Pop
        = some (none, PriorityQueue.mk [reqA] false 1 1 0) ↔
      (PriorityQueue.mk [reqA] false 1 1 0).closed = true ∧
      (PriorityQueue.mk [reqA] false 1 1 0).items = [] :=
  (C3_pop_close_semantics (PriorityQueue.mk [reqA] false 1 1 0)
    (by intro j hj hj0; simp at hj; omega)).1

/-- C4: Push returns false iff the queue is closed, and then the state
is completely unchanged; on an open queue Push returns true, adds the
record to the heap, and increments the in-flight WaitGroup counter. -/
theorem C4_push_closed_semantics (pq : PriorityQueue) (r : Request) :
    ((pq.Push r).1 = false ↔ pq.closed = true) ∧
    (pq.closed = true → (pq.Push r).2 = pq) ∧
    (pq.closed = false →
      (pq.Push r).1 = true ∧
      (pq.Push r).2.items.Perm (r :: pq.items) ∧
      (pq.Push r).2.inflight = pq.inflight + 1) := by
  by_cases hcl : pq.closed = true
  · have hps : pq.Push r = (false, pq) := by
      unfold PriorityQueue.Push; rw [if_pos hcl]
    rw [hps]
    simp [hcl]
  · have hcl' : pq.closed = false := by simpa using hcl
    obtain ⟨hb, hitems, _, hinf⟩ := PriorityQueue.push_open_spec pq r hcl'
    refine ⟨?_, ?_, ?_⟩
    · rw [hb]; simp [hcl']
    · intro hcon; exact absurd hcon hcl
    · intro _
      refine ⟨hb, ?_, hinf⟩
      rw [hitems]
      exact GoHeap.push_perm requestLess pq.items r

theorem C4_push_closed_semantics_witness :
    ((PriorityQueue.mk [] true 0 0 0).Push reqA).1 = false :=
  ((C4_push_closed_semantics (PriorityQueue.mk [] true 0 0 0) reqA).1).mpr rfl

/-- C5: ProcessRequest closes the token channel and sends no error on a
clean end-of-stream; on a failed stream start or a mid-stream error it
delivers exactly one error into the error channel and returns without
closing the token channel. -/
theorem C5_worker_stream_semantics (req : Request) (now : Nat)
    (frames : List TokenResponse) (e : String) :
    ((WorkerClient.ProcessRequest req now none frames StreamEnd.eof).2.errorsSent
        = [] ∧
      (WorkerClient.ProcessRequest req now none frames
        StreamEnd.eof).2.responseClosed = true ∧
      (WorkerClient.ProcessRequest req now none frames
        StreamEnd.eof).2.tokensForwarded = frames) ∧
    ((WorkerClient.ProcessRequest req now (some e) frames
        StreamEnd.eof).2.errorsSent = [e] ∧
      (WorkerClient.ProcessRequest req now (some e) frames
        StreamEnd.eof).2.responseClosed = false) ∧
    ((WorkerClient.ProcessRequest req now none frames
        (StreamEnd.recvErr e)).2.errorsSent = [e] ∧
      (WorkerClient.ProcessRequest req now none frames
        (StreamEnd.recvErr e)).2.responseClosed = false ∧
      (WorkerClient.ProcessRequest req now none frames
        (StreamEnd.recvErr e)).2.tokensForwarded = frames) := by
  unfold WorkerClient.ProcessRequest
  rw [recvLoop_eof, recvLoop_err]
  simp

theorem ServeHTTP_valid (q : PriorityQueue) (b : ReqBody)
    (ctxID : Option String) (now : Nat) (f : Bool) (hprompt : b.prompt ≠ "") :
    InferenceHandler.ServeHTTP q (some b) ctxID now f =
      InferenceHandler.serveWithRecord q
        (InferenceHandler.buildRecord (InferenceHandler.applyDefaults b)
          ctxID now) f := by
  unfold InferenceHandler.ServeHTTP
  simp only []
  rw [if_neg (by rw [applyDefaults_spec]; exact hprompt)]

/-- C6: when the queue is closed so that Push fails, the endpoint
responds 503 and returns at once: no SSE headers, no streaming loop, no
record pushed, queue untouched. -/
theorem C6_queue_closed_503 (q : PriorityQueue) (b : ReqBody)
    (ctxID : Option String) (now : Nat) (f : Bool)
    (hprompt : b.prompt ≠ "") (hclosed : q.closed = true) :
    (InferenceHandler.ServeHTTP q (some b) ctxID now f).status = 503 ∧
    (InferenceHandler.ServeHTTP q (some b) ctxID now f).sseHeadersSet = false ∧
    (InferenceHandler.ServeHTTP q (some b) ctxID now f).enteredStreamLoop
      = false ∧
    (InferenceHandler.ServeHTTP q (some b) ctxID now f).recordPushed = none ∧
    (InferenceHandler.ServeHTTP q (some b) ctxID now f).finalQueue = q := by
  rw [ServeHTTP_valid q b ctxID now f hprompt]
  unfold InferenceHandler.serveWithRecord
  have hps : q.Push (InferenceHandler.buildRecord
      (InferenceHandler.applyDefaults b) ctxID now) = (false, q) := by
    unfold PriorityQueue.Push; rw [if_pos hclosed]
  rw [hps]
  simp

def bodyA : ReqBody :=
  { prompt := "hi", maxTokens := 0, temperature := 0, model := "", priority := 0 }

theorem C6_queue_closed_503_witness :
    (InferenceHandler.ServeHTTP (PriorityQueue.mk [] true 0 0 0) (some bodyA)
      none 0 true).status = 503 :=
  (C6_queue_closed_503 (PriorityQueue.mk [] true 0 0 0) bodyA none 0 true
    (by decide) rfl).1

/-- C7 counterexample: with an open queue, a valid body and a response
writer without flush support, the handler produces the 500 but the
record has already been pushed: the final queue holds one record, not
zero as the claim requires. -/
theorem C7_counterexample :
    (InferenceHandler.ServeHTTP PriorityQueue.new (some bodyA) none 0
        false).status = 500 ∧
    (InferenceHandler.ServeHTTP PriorityQueue.new (some bodyA) none 0
        false).finalQueue.items.length = 1 := by
  constructor <;>
    simp [InferenceHandler.ServeHTTP, InferenceHandler.applyDefaults,
      InferenceHandler.serveWithRecord, InferenceHandler.buildRecord,
      PriorityQueue.new, PriorityQueue.Push, GoHeap.init, GoHeap.initAux,
      GoHeap.push, GoHeap.up, lswap, nth, bodyA]

/-- C7 (amended): if the response writer does not support flush, the
endpoint responds 500 and never runs the streaming loop, but only after
the record has been pushed: the queue gains the record, because the
flusher check runs after Push. -/
theorem C7_flusher_500_after_push (q : PriorityQueue) (b : ReqBody)
    (ctxID : Option String) (now : Nat)
    (hprompt : b.prompt ≠ "") (hopen : q.closed = false) :
    (InferenceHandler.ServeHTTP q (some b) ctxID now false).status = 500 ∧
    (InferenceHandler.ServeHTTP q (some b) ctxID now
      false).enteredStreamLoop = false ∧
    ∃ req,
      (InferenceHandler.ServeHTTP q (some b) ctxID now false).recordPushed
        = some req ∧
      (InferenceHandler.ServeHTTP q (some b) ctxID now
        false).finalQueue.items.Perm (req :: q.items) := by
  rw [ServeHTTP_valid q b ctxID now false hprompt]
  unfold InferenceHandler.serveWithRecord
  obtain ⟨hb, hitems, _, _⟩ := PriorityQueue.push_open_spec q
    (InferenceHandler.buildRecord (InferenceHandler.applyDefaults b) ctxID now)
    hopen
  rw [hb]
  simp only [Bool.true_eq_false, if_false, eq_self_iff_true, if_true]
  refine ⟨by trivial, by trivial,
    InferenceHandler.buildRecord (InferenceHandler.applyDefaults b) ctxID now,
    by trivial, ?_⟩
  rw [hitems]
  exact GoHeap.push_perm requestLess q.items _

theorem C7_flusher_500_after_push_witness :
    (InferenceHandler.ServeHTTP (PriorityQueue.mk [] false 0 0 0) (some bodyA)
      none 0 false).status = 500 :=
  (C7_flusher_500_after_push (PriorityQueue.mk [] false 0 0 0) bodyA none 0
    (by decide) rfl).1

/-- C8: invalid JSON or an empty prompt produce HTTP 400 with no record
created; otherwise the constructed record carries max_tokens 100 when
the field is absent or non-positive, temperature 0.7 when absent or
non-positive, model "default-model" when absent, priority 1 when absent
or non-positive, and the supplied values in all other cases (absent JSON
fields decode to the zero values "" and 0). -/
theorem C8_parsing_defaults (q : PriorityQueue) (ctxID : Option String)
    (now : Nat) (f : Bool) (b : ReqBody) :
    ((InferenceHandler.ServeHTTP q none ctxID now f).status = 400 ∧
      (InferenceHandler.ServeHTTP q none ctxID now f).recordBuilt = none) ∧
    (b.prompt = "" →
      (InferenceHandler.ServeHTTP q (some b) ctxID now f).status = 400 ∧
      (InferenceHandler.ServeHTTP q (some b) ctxID now f).recordBuilt
        = none) ∧
    (b.prompt ≠ "" →
      ∃ req,
        (InferenceHandler.ServeHTTP q (some b) ctxID now f).recordBuilt
          = some req ∧
        req.prompt = b.prompt ∧
        req.maxTokens = (if b.maxTokens ≤ 0 then 100 else b.maxTokens) ∧
        req.temperature
          = (if b.temperature ≤ 0 then 7 / 10 else b.temperature) ∧
        req.model = (if b.model = "" then "default-model" else b.model) ∧
        req.priority = (if b.priority ≤ 0 then 1 else b.priority)) := by
  refine ⟨⟨rfl, rfl⟩, ?_, ?_⟩
  · intro hp
    unfold InferenceHandler.ServeHTTP
    simp only []
    rw [if_pos (by rw [applyDefaults_spec]; exact hp)]
    exact ⟨rfl, rfl⟩
  · intro hp
    rw [ServeHTTP_valid q b ctxID now f hp]
    refine ⟨InferenceHandler.buildRecord (InferenceHandler.applyDefaults b)
      ctxID now, ?_, ?_, ?_, ?_, ?_, ?_⟩
    · unfold InferenceHandler.serveWithRecord
      split_ifs <;> rfl
    · show (InferenceHandler.applyDefaults b).prompt = b.prompt
      rw [applyDefaults_spec]
    · show (InferenceHandler.applyDefaults b).maxTokens = _
      rw [applyDefaults_spec]
    · show (InferenceHandler.applyDefaults b).temperature = _
      rw [applyDefaults_spec]
    · show (InferenceHandler.applyDefaults b).model = _
      rw [applyDefaults_spec]
    · show (InferenceHandler.applyDefaults b).priority = _
      rw [applyDefaults_spec]

/-- C9: Router.Close first closes the shared queue (so new pushes are
rejected and a waiting Pop on the emptied queue returns nil), then
returns from Wait only once the in-flight WaitGroup counter is zero, and
only after that closes every worker client, in pool order. -/
theorem C9_router_close_order (pq : PriorityQueue) (st : OpStats)
    (drainOps : List QueueOp) (n : Nat) (pq2 : PriorityQueue) (st2 : OpStats)
    (tr : List RouterEvent)
    (h : Router.CloseRun pq st drainOps n = some (pq2, st2, tr)) :
    tr = RouterEvent.queueClose :: RouterEvent.queueWait ::
      (List.range n).map RouterEvent.workerClose ∧
    pq2.closed = true ∧
    pq2.inflight = 0 ∧
    (∀ r, (pq2.Push r).1 = false ∧ (pq2.Push r).2 = pq2) ∧
    (pq2.items = [] → pq2.Pop = some (none, pq2)) := by
  unfold Router.CloseRun at h
  cases hrun : runOps (pq.Close, st) drainOps with
  | none => rw [hrun] at h; simp at h
  | some s2 =>
    obtain ⟨pq2', st2'⟩ := s2
    rw [hrun] at h
    simp only [] at h
    by_cases hz : pq2'.inflight = 0
    · rw [if_pos hz] at h
      simp only [Option.some.injEq, Prod.mk.injEq] at h
      obtain ⟨h1, h2, h3⟩ := h
      subst h1
      subst h2
      subst h3
      have hclosed : pq2'.closed = true :=
        runOps_closed drainOps (pq.Close, st) (pq2', st2') rfl hrun
      have hps : ∀ r : Request, pq2'.Push r = (false, pq2') := fun r => by
        unfold PriorityQueue.Push; rw [if_pos hclosed]
      refine ⟨rfl, hclosed, hz, ?_, ?_⟩
      · intro r
        rw [hps r]
        exact ⟨rfl, rfl⟩
      · intro hempty
        unfold PriorityQueue.Pop
        rw [if_pos (by rw [hempty]; rfl), if_pos hclosed]
    · rw [if_neg hz] at h
      simp at h

theorem C9_router_close_order_witness :
    (PriorityQueue.mk [] true 0 0 0).closed = true ∧
    (PriorityQueue.mk [] true 0 0 0).inflight = 0 :=
  ⟨(C9_router_close_order PriorityQueue.new OpStats.zero [] 1
      (PriorityQueue.mk [] true 0 0 0) OpStats.zero
      (RouterEvent.queueClose :: RouterEvent.queueWait ::
        (List.range 1).map RouterEvent.workerClose) rfl).2.1,
    (C9_router_close_order PriorityQueue.new OpStats.zero [] 1
      (PriorityQueue.mk [] true 0 0 0) OpStats.zero
      (RouterEvent.queueClose :: RouterEvent.queueWait ::
        (List.range 1).map RouterEvent.workerClose) rfl).2.2.1⟩

/-- Well-formedness of a record handed to the queue by the endpoint:
non-empty prompt and model, max tokens and priority at least 1, positive
temperature, token channel capacity 100, error channel capacity 1. -/
def recordWellFormed (req : Request) : Bool :=
  decide (req.prompt ≠ "") && decide (req.model ≠ "") &&
  decide (1 ≤ req.maxTokens) && decide (0 < req.temperature) &&
  decide (1 ≤ req.priority) && decide (req.responseChCap = 100) &&
  decide (req.errorChCap = 1)

/-- C10: every record the endpoint constructs (and hence every record it
pushes) has a non-empty prompt and model, max tokens at least 1, a
positive temperature, priority at least 1, a token channel of capacity
100 and an error channel of capacity 1. -/
theorem C10_record_invariant (q : PriorityQueue) (body : Option ReqBody)
    (ctxID : Option String) (now : Nat) (f : Bool) :
    (InferenceHandler.ServeHTTP q body ctxID now f).recordBuilt.all
        recordWellFormed = true ∧
    (InferenceHandler.ServeHTTP q body ctxID now f).recordPushed.all
        recordWellFormed = true := by
  cases body with
  | none => exact ⟨rfl, rfl⟩
  | some b =>
    by_cases hp : b.prompt = ""
    · unfold InferenceHandler.ServeHTTP
      simp only []
      rw [if_pos (by rw [applyDefaults_spec]; exact hp)]
      exact ⟨rfl, rfl⟩
    · rw [ServeHTTP_valid q b ctxID now f hp]
      have h1 : (InferenceHandler.applyDefaults b).prompt ≠ "" := by
        rw [applyDefaults_spec]; exact hp
      have h2 : (InferenceHandler.applyDefaults b).model ≠ "" := by
        rw [applyDefaults_spec]
        simp only []
        split_ifs with hm
        · decide
        · exact hm
      have h3 : 1 ≤ (InferenceHandler.applyDefaults b).maxTokens := by
        rw [applyDefaults_spec]
        simp only []
        split_ifs with hm
        · omega
        · omega
      have h4 : 0 < (InferenceHandler.applyDefaults b).temperature := by
        rw [applyDefaults_spec]
        simp only []
        split_ifs with hm
        · norm_num
        · exact lt_of_not_ge hm
      have h5 : 1 ≤ (InferenceHandler.applyDefaults b).priority := by
        rw [applyDefaults_spec]
        simp only []
        split_ifs with hm
        · omega
        · omega
      have hwf : recordWellFormed (InferenceHandler.buildRecord
          (InferenceHandler.applyDefaults b) ctxID now) = true := by
        unfold recordWellFormed InferenceHandler.buildRecord
        simp only [Bool.and_eq_true, decide_eq_true_eq]
        exact ⟨⟨⟨⟨⟨⟨h1, h2⟩, h3⟩, h4⟩, h5⟩, by trivial⟩, by trivial⟩
      unfold InferenceHandler.serveWithRecord
      split_ifs <;> exact ⟨by simp [hwf], by simp [hwf]⟩
